import Mathlib

/-!
Shallow embedding of the rust-rocket client library (sync-tracker client):
the `Interpolation` kinds, the `Track` keyframe store (`src/track.rs`),
the persistence blob codec (`Track::serialize`, `RocketClient::serialize`,
`RocketPlayer::deserialize`), and the connection state machine
(`RocketClient::poll_event` in `src/client.rs`).

Conventions of the embedding:
* `u8` bytes are `Nat` values below 256; byte buffers are `List Nat`.
* `u32` / `u64` fields are `Nat` with explicit `% 2 ^ 32` / `% 2 ^ 64`
  where the Rust code casts.
* `f32` values appear in two roles.  In the track store's `get_value`
  arithmetic they are modelled as `ℚ` (exact arithmetic over the same
  operations).  In the wire and persistence codecs, which only move the
  32-bit pattern of an `f32` verbatim, values are modelled as the raw
  32-bit pattern (a `Nat` below `2 ^ 32`).  `Track` is therefore generic
  in its value type.
* Rust panics (`unwrap`, out-of-range indexing, `unreachable!`) are
  modelled by `Option`: `none` is a panic.
-/

namespace Rocket

/-- `Interpolation` from `src/interpolation.rs`. -/
inductive Interpolation where
  | Step
  | Linear
  | Smooth
  | Ramp
deriving DecidableEq, Repr

namespace Interpolation

/-- The discriminant of the Rust enum (`Interpolation as u32`). -/
def code : Interpolation → Nat
  | .Step => 0
  | .Linear => 1
  | .Smooth => 2
  | .Ramp => 3

/-- `impl From<u8> for Interpolation`: unknown raw codes default to `Step`. -/
def ofU8 (raw : Nat) : Interpolation :=
  if raw = 0 then .Step
  else if raw = 1 then .Linear
  else if raw = 2 then .Smooth
  else if raw = 3 then .Ramp
  else .Step

/-- `Interpolation::interpolate`, with `f32` arithmetic modelled over `ℚ`. -/
def interpolate : Interpolation → ℚ → ℚ
  | .Step, _ => 0
  | .Linear, t => t
  | .Smooth, t => t * t * (3 - 2 * t)
  | .Ramp, t => t ^ 2

end Interpolation

/-- `Key` from `src/track.rs`, generic in the value representation
(`ℚ` for evaluation claims, raw 32-bit pattern for codec claims). -/
structure Key (α : Type) where
  row : Nat
  value : α
  interpolation : Interpolation
deriving DecidableEq, Repr

/-- `Track` from `src/track.rs`.  The name is kept as its byte string
(Rust `String` = UTF-8 bytes). -/
structure Track (α : Type) where
  name : List Nat
  keys : List (Key α)
deriving DecidableEq, Repr

namespace Track

/-- `Track::new`: a track with no keys. -/
def new (name : List Nat) : Track α := ⟨name, []⟩

/-- `Track::get_exact_position`: `keys.iter().position(|k| k.row == row)`. -/
def get_exact_position (t : Track α) (row : Nat) : Option Nat :=
  t.keys.findIdx? (fun k => k.row == row)

/-- `Track::get_insert_position`: `keys.iter().position(|k| k.row >= row)`. -/
def get_insert_position (t : Track α) (row : Nat) : Option Nat :=
  t.keys.findIdx? (fun k => row ≤ k.row)

/-- `Track::get_lower_bound_position`:
`keys.iter().position(|k| k.row > row).unwrap_or(keys.len()) - 1`
(the `- 1` is `usize` subtraction, modelled as truncated `Nat` subtraction). -/
def get_lower_bound_position (t : Track α) (row : Nat) : Nat :=
  ((t.keys.findIdx? (fun k => row < k.row)).getD t.keys.length) - 1

/-- `Track::set_key`: replace at an existing row, else insert at the first
position whose row is `≥`, else push at the end. -/
def set_key (t : Track α) (key : Key α) : Track α :=
  match t.get_exact_position key.row with
  | some pos => { t with keys := t.keys.set pos key }
  | none =>
    match t.get_insert_position key.row with
    | some pos => { t with keys := t.keys.insertIdx pos key }
    | none => { t with keys := t.keys ++ [key] }

/-- `Track::delete_key`: remove the key at `row` if present. -/
def delete_key (t : Track α) (row : Nat) : Track α :=
  match t.get_exact_position row with
  | some pos => { t with keys := t.keys.eraseIdx pos }
  | none => t

end Track

/-- `row.floor() as u32` in Rust: the float-to-integer `as` cast saturates,
clamping below at 0 and above at `u32::MAX`. -/
def floorSat (row : ℚ) : Nat :=
  min (Int.toNat ⌊row⌋) (2 ^ 32 - 1)

namespace Track

/-- `Track::get_value` over `ℚ` values.  Out-of-range list reads use a
junk default; `get_valueChecked` below shows they never happen on a
sorted track. -/
def get_value (t : Track ℚ) (row : ℚ) : ℚ :=
  match t.keys with
  | [] => 0
  | k0 :: _ =>
    let lowerRow := floorSat row
    if lowerRow ≤ k0.row then
      k0.value
    else if (t.keys.getLastD k0).row ≤ lowerRow then
      (t.keys.getLastD k0).value
    else
      let pos := t.get_lower_bound_position lowerRow
      let lower := t.keys.getD pos k0
      let higher := t.keys.getD (pos + 1) k0
      let tphase := (row - (lower.row : ℚ)) / ((higher.row : ℚ) - (lower.row : ℚ))
      lower.value + (higher.value - lower.value) * lower.interpolation.interpolate tphase

/-- `Track::get_value` with every operation that can go wrong made
explicit: `none` for a `usize` underflow in `get_lower_bound_position`,
an out-of-bounds key index, or a zero denominator. -/
def get_valueChecked (t : Track ℚ) (row : ℚ) : Option ℚ :=
  match t.keys with
  | [] => some 0
  | k0 :: _ =>
    let lowerRow := floorSat row
    if lowerRow ≤ k0.row then
      some k0.value
    else if (t.keys.getLastD k0).row ≤ lowerRow then
      some ((t.keys.getLastD k0).value)
    else
      let posRaw := (t.keys.findIdx? (fun k => lowerRow < k.row)).getD t.keys.length
      if posRaw = 0 then none
      else
        let pos := posRaw - 1
        match t.keys.get? pos, t.keys.get? (pos + 1) with
        | some lower, some higher =>
          if (higher.row : ℚ) - (lower.row : ℚ) = 0 then none
          else
            let tphase := (row - (lower.row : ℚ)) / ((higher.row : ℚ) - (lower.row : ℚ))
            some (lower.value +
              (higher.value - lower.value) * lower.interpolation.interpolate tphase)
        | _, _ => none

/-- The track-store invariant: keys strictly sorted by ascending row
(hence at most one key per row). -/
def sortedByRow (t : Track α) : Prop :=
  t.keys.Pairwise (fun a b => a.row < b.row)

instance (t : Track α) : Decidable t.sortedByRow := by
  unfold sortedByRow; infer_instance

end Track

/-! ## Byte-level codec helpers (`byteorder` reads and writes) -/

/-- Write a `u32` little-endian (`write_u32::<LE>`). -/
def writeU32LE (n : Nat) : List Nat :=
  [n % 256, n / 256 % 256, n / 256 ^ 2 % 256, n / 256 ^ 3 % 256]

/-- Write a `u64` little-endian (`write_u64::<LE>`). -/
def writeU64LE (n : Nat) : List Nat :=
  [n % 256, n / 256 % 256, n / 256 ^ 2 % 256, n / 256 ^ 3 % 256,
   n / 256 ^ 4 % 256, n / 256 ^ 5 % 256, n / 256 ^ 6 % 256, n / 256 ^ 7 % 256]

/-- `read_u8`: one byte off the stream, `none` = panic on exhausted input. -/
def readU8 : List Nat → Option (Nat × List Nat)
  | b :: rest => some (b, rest)
  | [] => none

/-- `read_u32::<LE>`. -/
def readU32LE : List Nat → Option (Nat × List Nat)
  | b0 :: b1 :: b2 :: b3 :: rest =>
    some (b0 + 256 * b1 + 256 ^ 2 * b2 + 256 ^ 3 * b3, rest)
  | _ => none

/-- `read_u64::<LE>`. -/
def readU64LE : List Nat → Option (Nat × List Nat)
  | b0 :: b1 :: b2 :: b3 :: b4 :: b5 :: b6 :: b7 :: rest =>
    some (b0 + 256 * b1 + 256 ^ 2 * b2 + 256 ^ 3 * b3 + 256 ^ 4 * b4 +
      256 ^ 5 * b5 + 256 ^ 6 * b6 + 256 ^ 7 * b7, rest)
  | _ => none

/-- `read_u32::<BigEndian>` (wire protocol fields). -/
def readU32BE : List Nat → Option (Nat × List Nat)
  | b0 :: b1 :: b2 :: b3 :: rest =>
    some (256 ^ 3 * b0 + 256 ^ 2 * b1 + 256 * b2 + b3, rest)
  | _ => none

/-! ## UTF-8 validation (`std::str::from_utf8`) -/

/-- A UTF-8 continuation byte: `0x80 ..= 0xBF`. -/
def utf8Cont (b : Nat) : Bool := 128 ≤ b && b < 192

/-- Validity of a byte string as UTF-8, per RFC 3629 (what
`std::str::from_utf8` checks): rejects overlong encodings, surrogates
and code points above `U+10FFFF`.  Structural recursion on a fuel
counter (one unit per encoded code point) keeps it kernel-computable;
`validUtf8` supplies `l.length` fuel, which always suffices. -/
def validUtf8Fuel : Nat → List Nat → Bool
  | _, [] => true
  | 0, _ :: _ => false
  | fuel + 1, b :: rest =>
    if b < 128 then validUtf8Fuel fuel rest
    else if b < 194 then false
    else if b < 224 then
      match rest with
      | c1 :: rest2 => utf8Cont c1 && validUtf8Fuel fuel rest2
      | [] => false
    else if b < 240 then
      match rest with
      | c1 :: c2 :: rest3 =>
        (if b = 224 then decide (160 ≤ c1) && decide (c1 < 192)
         else if b = 237 then decide (128 ≤ c1) && decide (c1 < 160)
         else utf8Cont c1) && utf8Cont c2 && validUtf8Fuel fuel rest3
      | _ => false
    else if b < 245 then
      match rest with
      | c1 :: c2 :: c3 :: rest4 =>
        (if b = 240 then decide (144 ≤ c1) && decide (c1 < 192)
         else if b = 244 then decide (128 ≤ c1) && decide (c1 < 144)
         else utf8Cont c1) && utf8Cont c2 && utf8Cont c3 && validUtf8Fuel fuel rest4
      | _ => false
    else false

/-- Validity of a byte string as UTF-8 (`std::str::from_utf8`). -/
def validUtf8 (l : List Nat) : Bool := validUtf8Fuel l.length l

/-! ## Persistence blob (`Track::serialize`, `RocketClient::serialize`,
`RocketPlayer::deserialize`).  All fields little-endian; `f32` values
move as their raw 32-bit pattern. -/

/-- One key in `Track::serialize`: `u32 row`, `f32 value` (raw pattern),
`u32 interpolation` discriminant. -/
def serializeKey (k : Key Nat) : List Nat :=
  writeU32LE k.row ++ writeU32LE k.value ++ writeU32LE k.interpolation.code

/-- `Track::serialize`: name length, name bytes, key count, keys. -/
def serializeTrack (t : Track Nat) : List Nat :=
  writeU64LE t.name.length ++ t.name ++
    writeU64LE t.keys.length ++ (t.keys.map serializeKey).flatten

/-- `RocketClient::serialize`: track count then each track. -/
def serialize (tracks : List (Track Nat)) : List Nat :=
  writeU64LE tracks.length ++ (tracks.map serializeTrack).flatten

/-- The `match` over raw interpolation codes in
`RocketPlayer::deserialize`: codes 0-3 decode, anything else is
`unreachable!()` (a panic, hence `none`). -/
def interpOfCode (code : Nat) : Option Interpolation :=
  if code = 0 then some Interpolation.Step
  else if code = 1 then some Interpolation.Linear
  else if code = 2 then some Interpolation.Smooth
  else if code = 3 then some Interpolation.Ramp
  else none

/-- The key-reading loop of `RocketPlayer::deserialize`: each decoded key
is applied with `set_key`. -/
def readKeys : Nat → Track Nat → List Nat → Option (Track Nat × List Nat)
  | 0, t, bytes => some (t, bytes)
  | n + 1, t, bytes =>
    match readU32LE bytes with
    | none => none
    | some (row, b1) =>
      match readU32LE b1 with
      | none => none
      | some (value, b2) =>
        match readU32LE b2 with
        | none => none
        | some (code, b3) =>
          match interpOfCode code with
          | none => none
          | some interp => readKeys n (t.set_key ⟨row, value, interp⟩) b3

/-- The track-reading loop of `RocketPlayer::deserialize`: name length,
name bytes (sliced out of the buffer — a panic if the slice runs past the
end — and checked as UTF-8), key count, keys. -/
def readTracks : Nat → List Nat → Option (List (Track Nat) × List Nat)
  | 0, bytes => some ([], bytes)
  | n + 1, bytes =>
    match readU64LE bytes with
    | none => none
    | some (nameLen, b1) =>
      if nameLen ≤ b1.length then
        if validUtf8 (b1.take nameLen) then
          match readU64LE (b1.drop nameLen) with
          | none => none
          | some (keyCount, b2) =>
            match readKeys keyCount (Track.new (b1.take nameLen)) b2 with
            | none => none
            | some (t, b3) =>
              match readTracks n b3 with
              | none => none
              | some (ts, b4) => some (t :: ts, b4)
        else none
      else none

/-- `RocketPlayer::deserialize`: track count then the tracks; trailing
bytes are ignored. -/
def deserialize (data : List Nat) : Option (List (Track Nat)) :=
  match readU64LE data with
  | none => none
  | some (trackCount, rest) =>
    match readTracks trackCount rest with
    | none => none
    | some (tracks, _) => some tracks

/-! ## Connection state machine (`RocketClient::poll_event`).

Socket reads are modelled by passing the delivered bytes to each step:
the `New` arm consumes exactly one tag byte (`read_exact` on a 1-byte
buffer), the `Incomplete` arm a chunk of `0 ..= remaining` bytes
(`read` on a `remaining`-byte zeroed buffer).  A `WouldBlock` read
leaves the client unchanged and is not modelled as a step. -/

/-- `ClientState` from `src/client.rs`. -/
inductive ClientState where
  | New
  | Incomplete (remaining : Nat)
  | Complete
deriving DecidableEq, Repr

/-- `Event` from `src/client.rs`. -/
inductive Event where
  | SetRow (row : Nat)
  | Pause (flag : Bool)
  | SaveTracks
deriving DecidableEq, Repr

/-- `ReceiveResult` from `src/client.rs`. -/
inductive ReceiveResult where
  | event (e : Event)
  | noEvent
  | incomplete
deriving DecidableEq, Repr

/-- The state a `RocketClient` carries across `poll_event` calls:
the parser state, the accumulated command buffer `cmd`, and the tracks.
(Wire `f32` values are kept as their raw 32-bit pattern.) -/
structure RocketClient where
  state : ClientState
  cmd : List Nat
  tracks : List (Track Nat)
deriving DecidableEq, Repr

/-- The `ClientState::New` arm of `poll_event`: one tag byte was read;
it is appended to `cmd` and `cmd[0]` selects the payload size. -/
def pollEventNew (c : RocketClient) (tag : Nat) : RocketClient × ReceiveResult :=
  let cmd := c.cmd ++ [tag]
  let t := cmd.headD 0
  let state :=
    if t = 0 then ClientState.Incomplete (4 + 4 + 4 + 1)
    else if t = 1 then ClientState.Incomplete (4 + 4)
    else if t = 3 then ClientState.Incomplete 4
    else if t = 4 then ClientState.Incomplete 1
    else ClientState.Complete
  ({ c with state := state, cmd := cmd }, ReceiveResult.incomplete)

/-- The `ClientState::Incomplete(bytes)` arm of `poll_event`: a
`bytes`-long zeroed buffer is filled by `read` with `received.length ≤
bytes` bytes, and the WHOLE buffer — received bytes plus the zero tail —
is appended to `cmd` (`self.cmd.extend_from_slice(&buf)`). -/
def pollEventIncomplete (c : RocketClient) (bytes : Nat) (received : List Nat) :
    RocketClient × ReceiveResult :=
  let buf := received ++ List.replicate (bytes - received.length) 0
  let cmd := c.cmd ++ buf
  let state :=
    if 0 < bytes - received.length then ClientState.Incomplete (bytes - received.length)
    else ClientState.Complete
  ({ c with state := state, cmd := cmd }, ReceiveResult.incomplete)

/-- The `ClientState::Complete` arm of `poll_event`: decode `cmd`, apply
track mutations, produce at most one event, clear `cmd`, reset to `New`.
`none` is a panic (a failed `unwrap` or an out-of-range track index). -/
def pollEventComplete (c : RocketClient) : Option (RocketClient × ReceiveResult) := do
  let (cmd, rest) ← readU8 c.cmd
  if cmd = 0 then
    let (trackIdx, rest) ← readU32BE rest
    let (row, rest) ← readU32BE rest
    let (value, rest) ← readU32BE rest
    let (interp, _) ← readU8 rest
    if trackIdx < c.tracks.length then
      let tracks := c.tracks.modify
        (fun t => t.set_key ⟨row, value, Interpolation.ofU8 interp⟩) trackIdx
      some ({ state := ClientState.New, cmd := [], tracks := tracks },
        ReceiveResult.noEvent)
    else none
  else if cmd = 1 then
    let (trackIdx, rest) ← readU32BE rest
    let (row, _) ← readU32BE rest
    if trackIdx < c.tracks.length then
      let tracks := c.tracks.modify (fun t => t.delete_key row) trackIdx
      some ({ state := ClientState.New, cmd := [], tracks := tracks },
        ReceiveResult.noEvent)
    else none
  else if cmd = 3 then
    let (row, _) ← readU32BE rest
    some ({ c with state := ClientState.New, cmd := [] },
      ReceiveResult.event (Event.SetRow row))
  else if cmd = 4 then
    let (flag, _) ← readU8 rest
    some ({ c with state := ClientState.New, cmd := [] },
      ReceiveResult.event (Event.Pause (flag = 1)))
  else if cmd = 5 then
    some ({ c with state := ClientState.New, cmd := [] },
      ReceiveResult.event Event.SaveTracks)
  else
    some ({ c with state := ClientState.New, cmd := [] }, ReceiveResult.noEvent)

/-- The specified insertion behaviour of `set_key` on one sorted key
list, stated recursively: replace the key at an equal row, insert before
the first key whose row is greater or equal, append when no such key
exists.  `set_key_keys_eq` below proves `set_key` refines it. -/
def insertSorted : List (Key α) → Key α → List (Key α)
  | [], k => [k]
  | x :: xs, k =>
    if x.row < k.row then x :: insertSorted xs k
    else if x.row = k.row then k :: xs
    else k :: x :: xs

/-- Observation: the key stored at a given row (first match in key
order, mirroring an `iter().find`-style scan). -/
def Track.lookupRow (t : Track α) (r : Nat) : Option (Key α) :=
  t.keys.find? (fun k => k.row == r)

/-- Concrete track of §8 of the spec: keys at rows {0: 1.0, 5: 0.0,
10: 1.0}, `Step` interpolation. -/
def exTrack : Track ℚ :=
  ⟨[], [⟨0, 1, Interpolation.Step⟩, ⟨5, 0, Interpolation.Step⟩,
        ⟨10, 1, Interpolation.Step⟩]⟩

/-- Concrete two-key track (rows 0 and 5, values 0 and 1, `Linear`). -/
def exTrack2 : Track ℚ :=
  ⟨[], [⟨0, 0, Interpolation.Linear⟩, ⟨5, 1, Interpolation.Linear⟩]⟩

/-! ## Helper lemmas: `set_key` on a sorted key list -/

theorem mem_of_mem_insertSorted {l : List (Key α)} {k y : Key α}
    (h : y ∈ insertSorted l k) : y = k ∨ y ∈ l := by
  induction l with
  | nil => simpa [insertSorted] using h
  | cons x xs ih =>
    unfold insertSorted at h
    by_cases h1 : x.row < k.row
    · rw [if_pos h1] at h
      rcases List.mem_cons.1 h with h | h
      · exact Or.inr (h ▸ List.mem_cons_self x xs)
      · rcases ih h with h | h
        · exact Or.inl h
        · exact Or.inr (List.mem_cons_of_mem _ h)
    · rw [if_neg h1] at h
      by_cases h2 : x.row = k.row
      · rw [if_pos h2] at h
        rcases List.mem_cons.1 h with h | h
        · exact Or.inl h
        · exact Or.inr (List.mem_cons_of_mem _ h)
      · rw [if_neg h2] at h
        rcases List.mem_cons.1 h with h | h
        · exact Or.inl h
        · exact Or.inr h

/-- A cons-level unfolding of `findIdx?` with the index accumulator
normalised away. -/
theorem findIdx?_cons_zero (p : α → Bool) (x : α) (xs : List α) :
    List.findIdx? p (x :: xs) =
      if p x then some 0 else (List.findIdx? p xs).map (· + 1) := by
  rw [List.findIdx?_cons]
  split
  · rfl
  · exact List.findIdx?_succ

/-- On a strictly sorted key list, `set_key`'s scan-and-patch (the
`get_exact_position` / `get_insert_position` logic) computes exactly the
specified sorted insertion. -/
theorem set_key_keys_eq (t : Track α) (k : Key α) (hs : t.sortedByRow) :
    (t.set_key k).keys = insertSorted t.keys k := by
  obtain ⟨name, keys⟩ := t
  unfold Track.sortedByRow at hs
  simp only at hs
  unfold Track.set_key Track.get_exact_position Track.get_insert_position
  simp only
  induction keys with
  | nil => rfl
  | cons x xs ih =>
    rw [List.pairwise_cons] at hs
    by_cases h1 : x.row < k.row
    · have hx1 : (x.row == k.row) = false := by
        simp [Nat.ne_of_lt h1]
      have hx2 : (decide (k.row ≤ x.row)) = false := by
        simp [h1]
      rw [findIdx?_cons_zero (fun y => y.row == k.row) x xs]
      rw [findIdx?_cons_zero (fun y => decide (k.row ≤ y.row)) x xs]
      rw [hx1, hx2]
      simp only [Bool.false_eq_true, if_false]
      have ihe := ih hs.2
      unfold insertSorted
      rw [if_pos h1]
      cases hfe : List.findIdx? (fun y => y.row == k.row) xs with
      | some pos =>
        simp only [hfe, Option.map_some', List.set_cons_succ] at ihe ⊢
        rw [← ihe]
      | none =>
        simp only [hfe, Option.map_none'] at ihe ⊢
        cases hfi : List.findIdx? (fun y => decide (k.row ≤ y.row)) xs with
        | some pos =>
          simp only [hfi, Option.map_some', List.insertIdx_succ_cons] at ihe ⊢
          rw [← ihe]
        | none =>
          simp only [hfi, Option.map_none'] at ihe ⊢
          rw [← ihe]
          rfl
    · by_cases h2 : x.row = k.row
      · have hx1 : (x.row == k.row) = true := by simp [h2]
        rw [findIdx?_cons_zero (fun y => y.row == k.row) x xs, hx1]
        simp only [if_true]
        unfold insertSorted
        rw [if_neg h1, if_pos h2]
        rfl
      · have h3 : k.row < x.row := by omega
        have hx1 : (x.row == k.row) = false := by simp [h2]
        have hfe : List.findIdx? (fun y => y.row == k.row) xs = none := by
          rw [List.findIdx?_eq_none_iff]
          intro y hy
          have := hs.1 y hy
          simp; omega
        have hx2 : (decide (k.row ≤ x.row)) = true := by
          simp; omega
        rw [findIdx?_cons_zero (fun y => y.row == k.row) x xs, hx1]
        simp only [Bool.false_eq_true, if_false, hfe, Option.map_none']
        rw [findIdx?_cons_zero (fun y => decide (k.row ≤ y.row)) x xs, hx2]
        simp only [if_true]
        unfold insertSorted
        rw [if_neg h1, if_neg h2]
        rfl

/-- Sorted insertion preserves strict row-sortedness. -/
theorem insertSorted_pairwise {l : List (Key α)} {k : Key α}
    (hs : l.Pairwise (fun a b => a.row < b.row)) :
    (insertSorted l k).Pairwise (fun a b => a.row < b.row) := by
  induction l with
  | nil => simp [insertSorted]
  | cons x xs ih =>
    rw [List.pairwise_cons] at hs
    unfold insertSorted
    by_cases h1 : x.row < k.row
    · rw [if_pos h1, List.pairwise_cons]
      refine ⟨fun y hy => ?_, ih hs.2⟩
      rcases mem_of_mem_insertSorted hy with rfl | hy
      · exact h1
      · exact hs.1 y hy
    · by_cases h2 : x.row = k.row
      · rw [if_neg h1, if_pos h2, List.pairwise_cons]
        exact ⟨fun y hy => h2 ▸ hs.1 y hy, hs.2⟩
      · rw [if_neg h1, if_neg h2, List.pairwise_cons]
        refine ⟨fun y hy => ?_, List.pairwise_cons.2 hs⟩
        rcases List.mem_cons.1 hy with rfl | hy
        · omega
        · have := hs.1 y hy; omega

/-- Replacement at an existing row keeps the length (on a sorted list). -/
theorem insertSorted_length_replace {l : List (Key α)} {k : Key α}
    (hs : l.Pairwise (fun a b => a.row < b.row))
    (h : ∃ y ∈ l, y.row = k.row) : (insertSorted l k).length = l.length := by
  induction l with
  | nil => simp at h
  | cons x xs ih =>
    rw [List.pairwise_cons] at hs
    unfold insertSorted
    by_cases h1 : x.row < k.row
    · rw [if_pos h1]
      rcases h with ⟨y, hy, hrow⟩
      rcases List.mem_cons.1 hy with rfl | hy
      · omega
      · simp [ih hs.2 ⟨y, hy, hrow⟩]
    · by_cases h2 : x.row = k.row
      · rw [if_neg h1, if_pos h2]; simp
      · rcases h with ⟨y, hy, hrow⟩
        rcases List.mem_cons.1 hy with rfl | hy
        · omega
        · have := hs.1 y hy
          omega

/-- Insertion at a fresh row grows the length by one. -/
theorem insertSorted_length_insert {l : List (Key α)} {k : Key α}
    (h : ∀ y ∈ l, y.row ≠ k.row) : (insertSorted l k).length = l.length + 1 := by
  induction l with
  | nil => simp [insertSorted]
  | cons x xs ih =>
    unfold insertSorted
    by_cases h1 : x.row < k.row
    · rw [if_pos h1]
      have := ih (fun y hy => h y (List.mem_cons_of_mem _ hy))
      simp [this]
    · by_cases h2 : x.row = k.row
      · exact absurd h2 (h x (List.mem_cons_self x xs))
      · rw [if_neg h1, if_neg h2]; simp

/-- When every existing row is below the new key's row, sorted insertion
is an append. -/
theorem insertSorted_append {l : List (Key α)} {k : Key α}
    (h : ∀ y ∈ l, y.row < k.row) : insertSorted l k = l ++ [k] := by
  induction l with
  | nil => rfl
  | cons x xs ih =>
    unfold insertSorted
    rw [if_pos (h x (List.mem_cons_self x xs)),
      ih (fun y hy => h y (List.mem_cons_of_mem _ hy))]
    rfl

theorem find?_insertSorted_eq {l : List (Key α)} {k : Key α} :
    (insertSorted l k).find? (fun y => y.row == k.row) = some k := by
  induction l with
  | nil => simp [insertSorted]
  | cons x xs ih =>
    unfold insertSorted
    by_cases h1 : x.row < k.row
    · rw [if_pos h1, List.find?_cons]
      have : (x.row == k.row) = false := by simp; omega
      rw [this]
      exact ih
    · by_cases h2 : x.row = k.row
      · rw [if_neg h1, if_pos h2, List.find?_cons]
        simp
      · rw [if_neg h1, if_neg h2, List.find?_cons]
        simp

theorem find?_insertSorted_ne {l : List (Key α)} {k : Key α} {r : Nat}
    (h : r ≠ k.row) :
    (insertSorted l k).find? (fun y => y.row == r) =
      l.find? (fun y => y.row == r) := by
  have hk : (k.row == r) = false := by simp; omega
  induction l with
  | nil => simp [insertSorted, hk]
  | cons x xs ih =>
    unfold insertSorted
    by_cases h1 : x.row < k.row
    · rw [if_pos h1, List.find?_cons, List.find?_cons]
      cases hx : (x.row == r) with
      | true => rfl
      | false => exact ih
    · by_cases h2 : x.row = k.row
      · rw [if_neg h1, if_pos h2, List.find?_cons, List.find?_cons, hk]
        have : (x.row == r) = false := by simp; omega
        rw [this]
      · rw [if_neg h1, if_neg h2, List.find?_cons, hk]

/-- `set_key` preserves the strict-sort invariant. -/
theorem set_key_sortedByRow (t : Track α) (k : Key α) (hs : t.sortedByRow) :
    (t.set_key k).sortedByRow := by
  unfold Track.sortedByRow
  rw [set_key_keys_eq t k hs]
  exact insertSorted_pairwise hs

/-- What `set_key` does to the key stored at each row: the new key's row
now holds the new key, every other row is untouched. -/
theorem lookupRow_set_key (t : Track α) (k : Key α) (hs : t.sortedByRow)
    (r : Nat) :
    (t.set_key k).lookupRow r = if r = k.row then some k else t.lookupRow r := by
  unfold Track.lookupRow
  rw [set_key_keys_eq t k hs]
  by_cases h : r = k.row
  · rw [if_pos h, h]
    exact find?_insertSorted_eq
  · rw [if_neg h]
    exact find?_insertSorted_ne h

/-- `delete_key` preserves the strict-sort invariant (it only ever
removes an element). -/
theorem delete_key_sortedByRow (t : Track α) (r : Nat) (hs : t.sortedByRow) :
    (t.delete_key r).sortedByRow := by
  unfold Track.delete_key
  cases hf : t.get_exact_position r with
  | none => exact hs
  | some pos =>
    unfold Track.sortedByRow
    exact List.Pairwise.sublist (List.eraseIdx_sublist t.keys pos) hs

/-- `delete_key` at a present row removes exactly one key. -/
theorem delete_key_length_present (t : Track α) (r : Nat)
    (h : ∃ k ∈ t.keys, k.row = r) :
    (t.delete_key r).keys.length = t.keys.length - 1 := by
  unfold Track.delete_key Track.get_exact_position
  rcases h with ⟨k, hk, hrow⟩
  have : ∃ x, x ∈ t.keys ∧ (x.row == r) = true := ⟨k, hk, by simp [hrow]⟩
  rw [List.findIdx?_eq_some_of_exists this]
  simp only
  have hlt : t.keys.findIdx (fun x => x.row == r) < t.keys.length :=
    List.findIdx_lt_length_of_exists this
  rw [List.length_eraseIdx, if_pos hlt]

/-- `delete_key` at an absent row is a no-op. -/
theorem delete_key_absent (t : Track α) (r : Nat)
    (h : ∀ k ∈ t.keys, k.row ≠ r) : t.delete_key r = t := by
  unfold Track.delete_key Track.get_exact_position
  rw [List.findIdx?_eq_none_iff.2 (fun x hx => by simp [h x hx])]

/-- Folding `set_key` over any key sequence preserves the invariant. -/
theorem foldl_set_key_sortedByRow (ks : List (Key α)) (t : Track α)
    (hs : t.sortedByRow) : (ks.foldl Track.set_key t).sortedByRow := by
  induction ks generalizing t with
  | nil => exact hs
  | cons k ks ih => exact ih (t.set_key k) (set_key_sortedByRow t k hs)

/-- Folding `set_key` over any key sequence: at each row, the LAST key
of the sequence with that row wins; rows the sequence never mentions
keep the original key. -/
theorem foldl_set_key_lookupRow (ks : List (Key α)) (t : Track α)
    (hs : t.sortedByRow) (r : Nat) :
    (ks.foldl Track.set_key t).lookupRow r =
      (ks.reverse.find? (fun y => y.row == r)).or (t.lookupRow r) := by
  induction ks generalizing t with
  | nil => simp
  | cons k ks ih =>
    rw [List.foldl_cons, ih (t.set_key k) (set_key_sortedByRow t k hs),
      List.reverse_cons, List.find?_append, Option.or_assoc]
    congr 1
    rw [lookupRow_set_key t k hs r]
    by_cases h : r = k.row
    · subst h
      simp
    · have : (k.row == r) = false := by simp; omega
      simp [this, h]

/-- `readKeys` only ever extends its track through `set_key`, so it
preserves the invariant. -/
theorem readKeys_sortedByRow :
    ∀ (n : Nat) (t : Track Nat) (bytes : List Nat) (t' : Track Nat)
      (rest : List Nat), readKeys n t bytes = some (t', rest) →
      t.sortedByRow → t'.sortedByRow := by
  intro n
  induction n with
  | zero =>
    intro t bytes t' rest h hs
    simp only [readKeys, Option.some.injEq, Prod.mk.injEq] at h
    exact h.1 ▸ hs
  | succ n ih =>
    intro t bytes t' rest h hs
    rcases h1 : readU32LE bytes with _ | ⟨row, b1⟩
    · simp [readKeys, h1] at h
    simp only [readKeys, h1] at h
    rcases h2 : readU32LE b1 with _ | ⟨value, b2⟩
    · simp [h2] at h
    simp only [h2] at h
    rcases h3 : readU32LE b2 with _ | ⟨code, b3⟩
    · simp [h3] at h
    simp only [h3] at h
    rcases h4 : interpOfCode code with _ | interp
    · simp [h4] at h
    simp only [h4] at h
    exact ih _ _ _ _ h (set_key_sortedByRow t _ hs)

/-- Every track produced by `readTracks` satisfies the invariant. -/
theorem readTracks_sortedByRow :
    ∀ (n : Nat) (bytes : List Nat) (ts : List (Track Nat))
      (rest : List Nat), readTracks n bytes = some (ts, rest) →
      ∀ t ∈ ts, t.sortedByRow := by
  intro n
  induction n with
  | zero =>
    intro bytes ts rest h
    simp only [readTracks, Option.some.injEq, Prod.mk.injEq] at h
    rw [← h.1]
    intro t ht
    simp at ht
  | succ n ih =>
    intro bytes ts rest h
    rcases h1 : readU64LE bytes with _ | ⟨nameLen, b1⟩
    · simp [readTracks, h1] at h
    simp only [readTracks, h1] at h
    by_cases h2 : nameLen ≤ b1.length
    · rw [if_pos h2] at h
      by_cases h3 : validUtf8 (b1.take nameLen) = true
      · rw [if_pos h3] at h
        rcases h4 : readU64LE (b1.drop nameLen) with _ | ⟨keyCount, b2⟩
        · simp [h4] at h
        simp only [h4] at h
        rcases h5 : readKeys keyCount (Track.new (b1.take nameLen)) b2 with
          _ | ⟨t0, b3⟩
        · simp [h5] at h
        simp only [h5] at h
        rcases h6 : readTracks n b3 with _ | ⟨ts0, b4⟩
        · simp [h6] at h
        simp only [h6] at h
        simp only [Option.some.injEq, Prod.mk.injEq] at h
        rw [← h.1]
        intro t ht
        rcases List.mem_cons.1 ht with rfl | ht
        · exact readKeys_sortedByRow _ _ _ _ _ h5 (by
            unfold Track.sortedByRow Track.new
            simp)
        · exact ih _ _ _ h6 t ht
      · rw [if_neg h3] at h
        simp at h
    · rw [if_neg h2] at h
      simp at h

/-! ## Helper lemmas: the saturating floor cast and `get_value` -/

theorem floorSat_le_of_le {row : ℚ} {n : Nat} (h : row ≤ (n : ℚ)) :
    floorSat row ≤ n := by
  unfold floorSat
  have h1 : ⌊row⌋ ≤ (n : ℤ) := by
    calc ⌊row⌋ ≤ ⌊(n : ℚ)⌋ := Int.floor_mono h
    _ = (n : ℤ) := Int.floor_natCast n
  have h2 : Int.toNat ⌊row⌋ ≤ n := by omega
  exact le_trans (Nat.min_le_left _ _) h2

theorem le_floorSat_of_le {row : ℚ} {n : Nat} (hb : n < 2 ^ 32)
    (h : (n : ℚ) ≤ row) : n ≤ floorSat row := by
  unfold floorSat
  have h1 : (n : ℤ) ≤ ⌊row⌋ := Int.le_floor.2 (by exact_mod_cast h)
  have h2 : n ≤ Int.toNat ⌊row⌋ := by omega
  exact le_min h2 (by omega)

theorem floorSat_eq_toNat {row : ℚ} (hb : Int.toNat ⌊row⌋ < 2 ^ 32) :
    floorSat row = Int.toNat ⌊row⌋ := by
  unfold floorSat
  exact Nat.min_eq_left (by omega)

theorem floorSat_neg {row : ℚ} (h : row < 0) : floorSat row = 0 := by
  unfold floorSat
  have h1 : ⌊row⌋ < 0 := Int.floor_lt.2 (by exact_mod_cast h)
  have h2 : Int.toNat ⌊row⌋ = 0 := by omega
  simp [h2]

/-- Rows are monotone along a strictly sorted key list. -/
theorem row_mono {keys : List (Key α)}
    (hs : keys.Pairwise (fun a b => a.row < b.row)) {i j : Nat}
    (hij : i ≤ j) (hj : j < keys.length) :
    (keys.get ⟨i, lt_of_le_of_lt hij hj⟩).row ≤ (keys.get ⟨j, hj⟩).row := by
  rcases Nat.eq_or_lt_of_le hij with rfl | hlt
  · exact le_refl _
  · have := (List.pairwise_iff_getElem.1 hs) i j (by omega) hj hlt
    simpa [List.get_eq_getElem] using le_of_lt this

/-- The last key of a nonempty list, through `getLastD`. -/
theorem getLastD_eq_get {l : List α} (h : 0 < l.length) (d : α) :
    l.getLastD d = l.get ⟨l.length - 1, by omega⟩ := by
  rw [List.getLastD_eq_getLast?, List.getLast?_eq_getElem?,
    List.getElem?_eq_getElem (by omega)]
  simp [List.get_eq_getElem]

/-- On a sorted key list, the first index whose row exceeds `L` is
`pos + 1` whenever `keys[pos].row ≤ L < keys[pos+1].row`. -/
theorem findIdx?_bracket {keys : List (Key α)}
    (hs : keys.Pairwise (fun a b => a.row < b.row))
    {pos L : Nat} (hp1 : pos + 1 < keys.length)
    (hlo : (keys.get ⟨pos, by omega⟩).row ≤ L)
    (hhi : L < (keys.get ⟨pos + 1, hp1⟩).row) :
    keys.findIdx? (fun k => decide (L < k.row)) = some (pos + 1) := by
  rw [List.findIdx?_eq_some_iff_getElem]
  refine ⟨hp1, by simpa [List.get_eq_getElem] using hhi, fun j hj => ?_⟩
  have hj' : j < keys.length := by omega
  have hmono : (keys.get ⟨j, hj'⟩).row ≤ (keys.get ⟨pos, by omega⟩).row :=
    row_mono hs (by omega) (by omega)
  simp only [decide_eq_true_eq, Nat.not_lt]
  calc keys[j].row = (keys.get ⟨j, hj'⟩).row := by simp [List.get_eq_getElem]
  _ ≤ (keys.get ⟨pos, by omega⟩).row := hmono
  _ ≤ L := hlo

/-- Evaluation of `get_value` in the interior-segment branch: when
`keys[pos].row ≤ floor(row) < keys[pos+1].row` and `floor(row)` is
strictly past the first key's row, the code blends between `keys[pos]`
(the `lower` key, whose interpolation kind is used) and `keys[pos+1]`. -/
theorem get_value_bracket (t : Track ℚ) (row : ℚ) (pos : Nat)
    (hs : t.sortedByRow)
    (hp1 : pos + 1 < t.keys.length)
    (hfirst : ∀ h : 0 < t.keys.length, (t.keys.get ⟨0, h⟩).row < floorSat row)
    (hlo : (t.keys.get ⟨pos, by omega⟩).row ≤ floorSat row)
    (hhi : floorSat row < (t.keys.get ⟨pos + 1, hp1⟩).row) :
    t.get_value row =
      (t.keys.get ⟨pos, by omega⟩).value +
        ((t.keys.get ⟨pos + 1, hp1⟩).value - (t.keys.get ⟨pos, by omega⟩).value) *
          (t.keys.get ⟨pos, by omega⟩).interpolation.interpolate
            ((row - ((t.keys.get ⟨pos, by omega⟩).row : ℚ)) /
              (((t.keys.get ⟨pos + 1, hp1⟩).row : ℚ) -
                ((t.keys.get ⟨pos, by omega⟩).row : ℚ))) := by
  obtain ⟨name, keys⟩ := t
  unfold Track.sortedByRow at hs
  simp only at hs hp1 hfirst hlo hhi ⊢
  cases keys with
  | nil => simp at hp1
  | cons k0 krest =>
    have hlen : 0 < (k0 :: krest).length := by simp
    have h0 : k0.row < floorSat row := hfirst hlen
    have hlast : floorSat row < ((k0 :: krest).getLastD k0).row := by
      rw [getLastD_eq_get hlen k0]
      calc floorSat row < ((k0 :: krest).get ⟨pos + 1, hp1⟩).row := hhi
      _ ≤ ((k0 :: krest).get ⟨(k0 :: krest).length - 1, by omega⟩).row :=
        row_mono hs (by omega) (by omega)
    show Track.get_value ⟨name, k0 :: krest⟩ row = _
    unfold Track.get_value
    simp only
    rw [if_neg (by omega)]
    rw [if_neg (by omega)]
    unfold Track.get_lower_bound_position
    simp only
    rw [findIdx?_bracket hs hp1 hlo hhi]
    simp only [Option.getD_some, Nat.add_sub_cancel]
    rw [List.getD_eq_getElem?_getD, List.getElem?_eq_getElem (by omega : pos < (k0 :: krest).length)]
    rw [List.getD_eq_getElem?_getD, List.getElem?_eq_getElem hp1]
    simp [List.get_eq_getElem]

/-- Evaluation of `get_value` in the first-key branch: whenever the
saturated floor of the lookup row does not exceed the first key's row,
the first key's value is returned. -/
theorem get_value_first (t : Track ℚ) (row : ℚ) (k0 : Key ℚ)
    (hh : t.keys.head? = some k0) (hb : floorSat row ≤ k0.row) :
    t.get_value row = k0.value := by
  obtain ⟨name, keys⟩ := t
  simp only at hh ⊢
  cases keys with
  | nil => simp at hh
  | cons x krest =>
    simp only [List.head?_cons, Option.some.injEq] at hh
    rw [← hh] at hb ⊢
    show Track.get_value ⟨name, x :: krest⟩ row = x.value
    unfold Track.get_value
    simp only
    rw [if_pos hb]

/-- On a sorted key list every row is at most the last key's row. -/
theorem row_le_getLast? {l : List (Key α)}
    (hs : l.Pairwise (fun a b => a.row < b.row)) {k klast : Key α}
    (hk : k ∈ l) (hl : l.getLast? = some klast) : k.row ≤ klast.row := by
  induction l with
  | nil => simp at hl
  | cons x xs ih =>
    rw [List.pairwise_cons] at hs
    cases xs with
    | nil =>
      simp at hl hk
      subst hl
      subst hk
      exact le_refl _
    | cons y ys =>
      rw [List.getLast?_cons_cons] at hl
      rcases List.mem_cons.1 hk with rfl | hk
      · have hmem : klast ∈ y :: ys := List.mem_of_mem_getLast? hl
        exact le_of_lt (hs.1 klast hmem)
      · exact ih hs.2 hk hl

/-- Evaluation of `get_value` in the last-key branch: on a sorted track,
whenever the saturated floor of the lookup row reaches the last key's
row, the last key's value is returned. -/
theorem get_value_last (t : Track ℚ) (row : ℚ) (klast : Key ℚ)
    (hl : t.keys.getLast? = some klast) (hs : t.sortedByRow)
    (hb : klast.row ≤ floorSat row) :
    t.get_value row = klast.value := by
  obtain ⟨name, keys⟩ := t
  unfold Track.sortedByRow at hs
  simp only at hs hl ⊢
  cases keys with
  | nil => simp at hl
  | cons k0 krest =>
    show Track.get_value ⟨name, k0 :: krest⟩ row = _
    unfold Track.get_value
    simp only
    have hlastD : (k0 :: krest).getLastD k0 = klast := by
      rw [List.getLastD_eq_getLast?, hl]
      rfl
    by_cases hc : floorSat row ≤ k0.row
    · cases krest with
      | nil =>
        rw [if_pos hc]
        simp at hl
        rw [hl]
      | cons k1 krest2 =>
        exfalso
        have h1 : k0.row < k1.row := (List.pairwise_cons.1 hs).1 k1 (by simp)
        have h2 : k1.row ≤ klast.row :=
          row_le_getLast? (List.pairwise_cons.1 hs).2 (by simp) (by
            rw [List.getLast?_cons_cons] at hl
            exact hl)
        omega
    · rw [if_neg hc, hlastD, if_pos hb]

/-- Evaluation of `get_valueChecked` in the interior-segment branch:
all checks pass and it produces the blended value. -/
theorem get_valueChecked_bracket (t : Track ℚ) (row : ℚ) (pos : Nat)
    (hs : t.sortedByRow)
    (hp1 : pos + 1 < t.keys.length)
    (hfirst : ∀ h : 0 < t.keys.length, (t.keys.get ⟨0, h⟩).row < floorSat row)
    (hlo : (t.keys.get ⟨pos, by omega⟩).row ≤ floorSat row)
    (hhi : floorSat row < (t.keys.get ⟨pos + 1, hp1⟩).row) :
    t.get_valueChecked row = some
      ((t.keys.get ⟨pos, by omega⟩).value +
        ((t.keys.get ⟨pos + 1, hp1⟩).value - (t.keys.get ⟨pos, by omega⟩).value) *
          (t.keys.get ⟨pos, by omega⟩).interpolation.interpolate
            ((row - ((t.keys.get ⟨pos, by omega⟩).row : ℚ)) /
              (((t.keys.get ⟨pos + 1, hp1⟩).row : ℚ) -
                ((t.keys.get ⟨pos, by omega⟩).row : ℚ)))) := by
  obtain ⟨name, keys⟩ := t
  unfold Track.sortedByRow at hs
  simp only at hs hp1 hfirst hlo hhi ⊢
  cases keys with
  | nil => simp at hp1
  | cons k0 krest =>
    have hlen : 0 < (k0 :: krest).length := by simp
    have h0 : k0.row < floorSat row := hfirst hlen
    have hlast : floorSat row < ((k0 :: krest).getLastD k0).row := by
      rw [getLastD_eq_get hlen k0]
      calc floorSat row < ((k0 :: krest).get ⟨pos + 1, hp1⟩).row := hhi
      _ ≤ ((k0 :: krest).get ⟨(k0 :: krest).length - 1, by omega⟩).row :=
        row_mono hs (by omega) (by omega)
    show Track.get_valueChecked ⟨name, k0 :: krest⟩ row = _
    unfold Track.get_valueChecked
    simp only
    rw [if_neg (by omega), if_neg (by omega)]
    rw [findIdx?_bracket hs hp1 hlo hhi]
    simp only [Option.getD_some, Nat.add_sub_cancel]
    rw [if_neg (by omega : ¬ pos + 1 = 0)]
    rw [List.get?_eq_getElem?, List.get?_eq_getElem?,
      List.getElem?_eq_getElem (by omega : pos < (k0 :: krest).length),
      List.getElem?_eq_getElem hp1]
    have hrowlt : (k0 :: krest)[pos].row < (k0 :: krest)[pos + 1].row :=
      (List.pairwise_iff_getElem.1 hs) pos (pos + 1) (by omega) hp1 (by omega)
    have hden : ¬ ((((k0 :: krest)[pos + 1].row : Nat) : ℚ) -
        (((k0 :: krest)[pos].row : Nat) : ℚ) = 0) := by
      have hcast : ((((k0 :: krest)[pos].row : Nat)) : ℚ) <
          ((((k0 :: krest)[pos + 1].row : Nat)) : ℚ) := by
        exact_mod_cast hrowlt
      exact sub_ne_zero_of_ne (ne_of_gt hcast)
    simp only [List.get_eq_getElem]
    rw [if_neg hden]

/-- On a sorted track, every checked operation of `get_value` succeeds
and the checked evaluator agrees with the total one: no index
underflow, no out-of-bounds read, no zero denominator. -/
theorem get_valueChecked_eq (t : Track ℚ) (row : ℚ) (hs : t.sortedByRow) :
    t.get_valueChecked row = some (t.get_value row) := by
  obtain ⟨name, keys⟩ := t
  unfold Track.sortedByRow at hs
  simp only at hs ⊢
  cases keys with
  | nil => rfl
  | cons k0 krest =>
    show Track.get_valueChecked ⟨name, k0 :: krest⟩ row =
      some (Track.get_value ⟨name, k0 :: krest⟩ row)
    by_cases hA : floorSat row ≤ k0.row
    · unfold Track.get_valueChecked Track.get_value
      simp only
      rw [if_pos hA, if_pos hA]
    · by_cases hB : ((k0 :: krest).getLastD k0).row ≤ floorSat row
      · unfold Track.get_valueChecked Track.get_value
        simp only
        rw [if_neg hA, if_neg hA, if_pos hB, if_pos hB]
      · -- interior branch: extract the bracketing pair from the scan
        have hp : ∃ x, x ∈ k0 :: krest ∧
            (decide (floorSat row < x.row)) = true := by
          refine ⟨(k0 :: krest).getLastD k0, ?_, ?_⟩
          · rw [getLastD_eq_get (by simp) k0]
            exact List.get_mem _ _ _
          · simp only [decide_eq_true_eq]
            omega
        obtain ⟨i, hfind⟩ : ∃ i, List.findIdx?
            (fun k => decide (floorSat row < k.row)) (k0 :: krest) = some i :=
          ⟨_, List.findIdx?_eq_some_of_exists hp⟩
        obtain ⟨hilen, hpi, hmin⟩ := List.findIdx?_eq_some_iff_getElem.1 hfind
        have hi0 : i ≠ 0 := by
          intro h0
          subst h0
          simp only [List.getElem_cons_zero, decide_eq_true_eq] at hpi
          omega
        have hp1 : (i - 1) + 1 < (k0 :: krest).length := by omega
        have hfirst : ∀ h : 0 < (k0 :: krest).length,
            (((k0 :: krest)).get ⟨0, h⟩).row < floorSat row := by
          intro h
          show k0.row < floorSat row
          omega
        have hidx : i - 1 + 1 = i := by omega
        have hlo : (((k0 :: krest)).get
            ⟨i - 1, by omega⟩).row ≤ floorSat row := by
          have hm := hmin (i - 1) (by omega)
          simp only [decide_eq_true_eq, Nat.not_lt] at hm
          simp only [List.get_eq_getElem]
          exact hm
        have hhi : floorSat row < (((k0 :: krest)).get
            ⟨(i - 1) + 1, hp1⟩).row := by
          simp only [hidx, List.get_eq_getElem]
          simp only [decide_eq_true_eq] at hpi
          exact hpi
        have hfind2 : List.findIdx? (fun k => decide (floorSat row < k.row))
            (k0 :: krest) = some ((i - 1) + 1) := by
          rw [hidx]
          exact hfind
        rw [get_valueChecked_bracket ⟨name, k0 :: krest⟩ row (i - 1)
            hs hp1 hfirst hlo hhi,
          get_value_bracket ⟨name, k0 :: krest⟩ row (i - 1)
            hs hp1 hfirst hlo hhi]

/-! ## Helper lemmas: the persistence blob round-trip -/

theorem readU32LE_writeU32LE (n : Nat) (rest : List Nat) (h : n < 2 ^ 32) :
    readU32LE (writeU32LE n ++ rest) = some (n, rest) := by
  unfold writeU32LE
  simp only [List.cons_append, List.nil_append, readU32LE,
    Option.some.injEq, Prod.mk.injEq]
  exact ⟨by omega, trivial⟩

theorem readU64LE_writeU64LE (n : Nat) (rest : List Nat) (h : n < 2 ^ 64) :
    readU64LE (writeU64LE n ++ rest) = some (n, rest) := by
  unfold writeU64LE
  simp only [List.cons_append, List.nil_append, readU64LE,
    Option.some.injEq, Prod.mk.injEq]
  exact ⟨by omega, trivial⟩

/-- Reading fewer than 8 remaining bytes as a `u64` panics. -/
theorem readU64LE_none {l : List Nat} (h : l.length < 8) : readU64LE l = none := by
  rcases l with _ | ⟨b0, _ | ⟨b1, _ | ⟨b2, _ | ⟨b3, _ | ⟨b4, _ | ⟨b5, _ |
    ⟨b6, _ | ⟨b7, l⟩⟩⟩⟩⟩⟩⟩⟩
  all_goals first
  | rfl
  | (exfalso; simp only [List.length_cons] at h; omega)

/-- Reading fewer than 4 remaining bytes as a `u32` panics. -/
theorem readU32LE_none {l : List Nat} (h : l.length < 4) : readU32LE l = none := by
  rcases l with _ | ⟨b0, _ | ⟨b1, _ | ⟨b2, _ | ⟨b3, l⟩⟩⟩⟩
  all_goals first
  | rfl
  | (exfalso; simp only [List.length_cons] at h; omega)

/-- A successful `u32` read consumes exactly 4 bytes. -/
theorem readU32LE_some_length {l rest : List Nat} {v : Nat}
    (h : readU32LE l = some (v, rest)) : rest.length + 4 = l.length := by
  rcases l with _ | ⟨b0, l⟩
  · simp [readU32LE] at h
  rcases l with _ | ⟨b1, l⟩
  · simp [readU32LE] at h
  rcases l with _ | ⟨b2, l⟩
  · simp [readU32LE] at h
  rcases l with _ | ⟨b3, l⟩
  · simp [readU32LE] at h
  simp only [readU32LE, Option.some.injEq, Prod.mk.injEq] at h
  rw [← h.2]
  simp only [List.length_cons]

/-- A successful `u64` read consumes exactly 8 bytes. -/
theorem readU64LE_some_length {l rest : List Nat} {v : Nat}
    (h : readU64LE l = some (v, rest)) : rest.length + 8 = l.length := by
  rcases l with _ | ⟨b0, l⟩
  · simp [readU64LE] at h
  rcases l with _ | ⟨b1, l⟩
  · simp [readU64LE] at h
  rcases l with _ | ⟨b2, l⟩
  · simp [readU64LE] at h
  rcases l with _ | ⟨b3, l⟩
  · simp [readU64LE] at h
  rcases l with _ | ⟨b4, l⟩
  · simp [readU64LE] at h
  rcases l with _ | ⟨b5, l⟩
  · simp [readU64LE] at h
  rcases l with _ | ⟨b6, l⟩
  · simp [readU64LE] at h
  rcases l with _ | ⟨b7, l⟩
  · simp [readU64LE] at h
  simp only [readU64LE, Option.some.injEq, Prod.mk.injEq] at h
  rw [← h.2]
  simp only [List.length_cons]

/-- A successful key-loop run consumes exactly 12 bytes per declared
key. -/
theorem readKeys_some_length :
    ∀ (kc : Nat) (t : Track Nat) (bytes : List Nat) (t2 : Track Nat)
      (rest : List Nat), readKeys kc t bytes = some (t2, rest) →
      rest.length + 12 * kc = bytes.length := by
  intro kc
  induction kc with
  | zero =>
    intro t bytes t2 rest h
    simp only [readKeys, Option.some.injEq, Prod.mk.injEq] at h
    rw [← h.2]
    omega
  | succ kc ih =>
    intro t bytes t2 rest h
    rcases h1 : readU32LE bytes with _ | ⟨row, b1⟩
    · simp [readKeys, h1] at h
    simp only [readKeys, h1] at h
    rcases h2 : readU32LE b1 with _ | ⟨value, b2⟩
    · simp [h2] at h
    simp only [h2] at h
    rcases h3 : readU32LE b2 with _ | ⟨code, b3⟩
    · simp [h3] at h
    simp only [h3] at h
    rcases h4 : interpOfCode code with _ | interp
    · simp [h4] at h
    simp only [h4] at h
    have l1 := readU32LE_some_length h1
    have l2 := readU32LE_some_length h2
    have l3 := readU32LE_some_length h3
    have l4 := ih _ _ _ _ h
    omega

/-- A declared key count that would read past the buffer's end (each
key needs 12 bytes) makes the key loop panic. -/
theorem readKeys_none_short :
    ∀ (kc : Nat) (t : Track Nat) (bytes : List Nat),
      bytes.length < 12 * kc → readKeys kc t bytes = none := by
  intro kc
  induction kc with
  | zero =>
    intro t bytes h
    omega
  | succ kc ih =>
    intro t bytes h
    rcases h1 : readU32LE bytes with _ | ⟨row, b1⟩
    · simp [readKeys, h1]
    simp only [readKeys, h1]
    rcases h2 : readU32LE b1 with _ | ⟨value, b2⟩
    · simp [h2]
    simp only [h2]
    rcases h3 : readU32LE b2 with _ | ⟨code, b3⟩
    · simp [h3]
    simp only [h3]
    rcases h4 : interpOfCode code with _ | interp
    · simp [h4]
    simp only [h4]
    apply ih
    have l1 := readU32LE_some_length h1
    have l2 := readU32LE_some_length h2
    have l3 := readU32LE_some_length h3
    omega

/-- A declared track count that would read past the buffer's end makes
the track loop panic: every track consumes at least 16 bytes (its two
u64 length headers). -/
theorem readTracks_none_short :
    ∀ (cnt : Nat) (bytes : List Nat),
      bytes.length < 16 * cnt → readTracks cnt bytes = none := by
  intro cnt
  induction cnt with
  | zero =>
    intro bytes h
    omega
  | succ cnt ih =>
    intro bytes h
    rcases h1 : readU64LE bytes with _ | ⟨nameLen, b1⟩
    · simp [readTracks, h1]
    simp only [readTracks, h1]
    by_cases h2 : nameLen ≤ b1.length
    · rw [if_pos h2]
      by_cases h3 : validUtf8 (b1.take nameLen) = true
      · rw [if_pos h3]
        rcases h4 : readU64LE (b1.drop nameLen) with _ | ⟨kc, b2⟩
        · simp [h4]
        simp only [h4]
        rcases h5 : readKeys kc (Track.new (b1.take nameLen)) b2 with _ | ⟨t0, b3⟩
        · simp [h5]
        simp only [h5]
        have hlen1 := readU64LE_some_length h1
        have hlen4 := readU64LE_some_length h4
        have hlen5 := readKeys_some_length kc _ b2 t0 b3 h5
        have hdrop : (b1.drop nameLen).length = b1.length - nameLen := by
          simp
        simp only [ih b3 (by omega)]
      · rw [if_neg h3]
    · rw [if_neg h2]

/-- A declared name length that runs past the buffer's end makes the
track loop panic, at any remaining-track count and any position of the
buffer. -/
theorem readTracks_none_nameLen
    (n : Nat) (bytes : List Nat) (nameLen : Nat) (b1 : List Nat)
    (h1 : readU64LE bytes = some (nameLen, b1)) (h2 : b1.length < nameLen) :
    readTracks (n + 1) bytes = none := by
  simp only [readTracks, h1]
  rw [if_neg (by omega)]

/-- A name whose bytes are not valid UTF-8 makes the track loop panic. -/
theorem readTracks_none_utf8
    (n : Nat) (bytes : List Nat) (nameLen : Nat) (b1 : List Nat)
    (h1 : readU64LE bytes = some (nameLen, b1)) (h2 : nameLen ≤ b1.length)
    (h3 : validUtf8 (b1.take nameLen) = false) :
    readTracks (n + 1) bytes = none := by
  simp only [readTracks, h1]
  rw [if_pos h2, if_neg (by simp [h3])]

/-- A declared key count that runs past the buffer's end makes the
track loop panic. -/
theorem readTracks_none_keyCount
    (n : Nat) (bytes : List Nat) (nameLen : Nat) (b1 : List Nat)
    (kc : Nat) (b2 : List Nat)
    (h1 : readU64LE bytes = some (nameLen, b1)) (h2 : nameLen ≤ b1.length)
    (h4 : readU64LE (b1.drop nameLen) = some (kc, b2))
    (h5 : b2.length < 12 * kc) :
    readTracks (n + 1) bytes = none := by
  simp only [readTracks, h1]
  rw [if_pos h2]
  by_cases h3 : validUtf8 (b1.take nameLen) = true
  · rw [if_pos h3]
    simp only [h4]
    simp only [readKeys_none_short kc _ b2 h5]
  · rw [if_neg h3]

/-- A panic anywhere in the track loop is a panic of `deserialize`: no
track collection is produced. -/
theorem deserialize_none_of_readTracks
    (data : List Nat) (cnt : Nat) (rest : List Nat)
    (h1 : readU64LE data = some (cnt, rest))
    (h2 : readTracks cnt rest = none) :
    deserialize data = none := by
  unfold deserialize
  simp only [h1, h2]

/-- The decoder's interpolation-code match inverts the encoder's
discriminant cast. -/
theorem interpOfCode_code (i : Interpolation) : interpOfCode i.code = some i := by
  cases i <;> rfl

/-- When the new key's row is past every existing row, `set_key`
appends. -/
theorem set_key_append (t : Track α) (k : Key α)
    (h : ∀ x ∈ t.keys, x.row < k.row) :
    t.set_key k = ⟨t.name, t.keys ++ [k]⟩ := by
  unfold Track.set_key Track.get_exact_position Track.get_insert_position
  rw [List.findIdx?_eq_none_iff.2 (fun x hx => by
    have := h x hx
    simp
    omega)]
  rw [List.findIdx?_eq_none_iff.2 (fun x hx => by
    have := h x hx
    simp only [decide_eq_false_iff_not, Nat.not_le]
    omega)]

/-- Reading back the serialized keys of a sorted track reproduces them,
one `set_key` (= append) at a time. -/
theorem readKeys_serialized :
    ∀ (ks : List (Key Nat)) (t : Track Nat) (rest : List Nat),
      ks.Pairwise (fun a b => a.row < b.row) →
      (∀ x ∈ t.keys, ∀ k ∈ ks, x.row < k.row) →
      (∀ k ∈ ks, k.row < 2 ^ 32 ∧ k.value < 2 ^ 32) →
      readKeys ks.length t ((ks.map serializeKey).flatten ++ rest) =
        some (⟨t.name, t.keys ++ ks⟩, rest) := by
  intro ks
  induction ks with
  | nil =>
    intro t rest _ _ _
    simp [readKeys]
  | cons k ks ih =>
    intro t rest hs hcross hb
    rw [List.pairwise_cons] at hs
    obtain ⟨hkrow, hkval⟩ := hb k (List.mem_cons_self k ks)
    simp only [List.map_cons, List.flatten_cons, List.length_cons]
    rw [show serializeKey k = writeU32LE k.row ++ writeU32LE k.value ++
      writeU32LE k.interpolation.code from rfl]
    simp only [readKeys, List.append_assoc]
    rw [readU32LE_writeU32LE k.row _ hkrow]
    simp only
    rw [readU32LE_writeU32LE k.value _ hkval]
    simp only
    rw [readU32LE_writeU32LE k.interpolation.code _ (by
      cases k.interpolation <;> simp [Interpolation.code])]
    simp only
    rw [interpOfCode_code]
    simp only
    have hset : t.set_key ⟨k.row, k.value, k.interpolation⟩ =
        ⟨t.name, t.keys ++ [k]⟩ := set_key_append t k (fun x hx =>
          hcross x hx k (List.mem_cons_self k ks))
    rw [hset]
    have ihx := ih ⟨t.name, t.keys ++ [k]⟩ rest hs.2 (by
      intro x hx k2 hk2
      rcases List.mem_append.1 hx with hx | hx
      · exact hcross x hx k2 (List.mem_cons_of_mem _ hk2)
      · rcases List.mem_singleton.1 hx with rfl
        exact hs.1 k2 hk2) (fun k2 hk2 => hb k2 (List.mem_cons_of_mem _ hk2))
    rw [ihx]
    simp

/-- Reading back serialized tracks reproduces them. -/
theorem readTracks_serialized :
    ∀ (ts : List (Track Nat)) (rest : List Nat),
      (∀ t ∈ ts, t.sortedByRow ∧ validUtf8 t.name = true ∧
        t.name.length < 2 ^ 64 ∧ t.keys.length < 2 ^ 64 ∧
        ∀ k ∈ t.keys, k.row < 2 ^ 32 ∧ k.value < 2 ^ 32) →
      readTracks ts.length ((ts.map serializeTrack).flatten ++ rest) =
        some (ts, rest) := by
  intro ts
  induction ts with
  | nil =>
    intro rest _
    simp [readTracks]
  | cons t ts ih =>
    intro rest hh
    obtain ⟨hsort, hutf, hnlen, hklen, hkb⟩ := hh t (List.mem_cons_self t ts)
    simp only [List.map_cons, List.flatten_cons, List.length_cons]
    rw [show serializeTrack t = writeU64LE t.name.length ++ t.name ++
      writeU64LE t.keys.length ++ (t.keys.map serializeKey).flatten from rfl]
    simp only [readTracks, List.append_assoc]
    rw [readU64LE_writeU64LE t.name.length _ hnlen]
    simp only
    rw [if_pos (by
      simp only [List.length_append]
      omega)]
    rw [List.take_left, List.drop_left]
    rw [hutf]
    simp only [if_true]
    rw [readU64LE_writeU64LE t.keys.length _ hklen]
    simp only
    rw [readKeys_serialized t.keys (Track.new t.name) _ hsort
      (by intro x hx; simp [Track.new] at hx) hkb]
    simp only [Track.new, List.nil_append]
    rw [ih rest (fun t2 ht2 => hh t2 (List.mem_cons_of_mem _ ht2))]
/-! ## Claim theorems -/

/-- C1 (code bug in the `Incomplete` arm): delivering the SET_ROW message
`[3, 0, 0, 0, 7]` whole yields `SetRow 7`, but delivering its 4-byte
payload as two 2-byte reads corrupts the command buffer — the code
appends the entire zero-filled read buffer, not just the bytes actually
received — so the buffer grows by 4 bytes after a 2-byte read and the
message decodes as `SetRow 0`. -/
theorem c1_chunked_read_corrupts_buffer :
    (pollEventComplete (pollEventIncomplete
        (pollEventNew ⟨ClientState.New, [], []⟩ 3).1 4 [0, 0, 0, 7]).1 =
      some (⟨ClientState.New, [], []⟩, ReceiveResult.event (Event.SetRow 7))) ∧
    ((pollEventIncomplete (pollEventNew ⟨ClientState.New, [], []⟩ 3).1 4 [0, 0]).1.cmd =
      [3, 0, 0, 0, 0]) ∧
    (pollEventComplete (pollEventIncomplete (pollEventIncomplete
        (pollEventNew ⟨ClientState.New, [], []⟩ 3).1 4 [0, 0]).1 2 [0, 7]).1 =
      some (⟨ClientState.New, [], []⟩, ReceiveResult.event (Event.SetRow 0))) := by
  refine ⟨rfl, rfl, rfl⟩

/-- C2 counterexample: the set-key tag (0) transitions to
`Incomplete 13` — thirteen payload bytes, not a member of the claimed
size set {0, 1, 4, 8, 9}. -/
theorem c2_counterexample :
    (pollEventNew ⟨ClientState.New, [], []⟩ 0).1.state = ClientState.Incomplete 13 ∧
    ¬ (13 = 0 ∨ 13 = 1 ∨ 13 = 4 ∨ 13 = 8 ∨ 13 = 9) := by
  exact ⟨rfl, by decide⟩

/-- C2 (amended): in state `New`, one tag byte maps to the payload sizes
13 (set-key), 8 (delete-key), 4 (set-row), 1 (pause), 0 (save-tracks,
directly `Complete`), and every other tag also goes directly to
`Complete`; the 13-byte set-key payload is a big-endian u32 track index,
u32 row, f32 value (raw bits) and u8 interpolation code, as the decode of
`[0, 0,0,0,0, 0,0,0,2, 63,128,0,0, 1]` into a key at row 2 with value
bits 0x3F800000 and `Linear` interpolation shows. -/
theorem c2_tag_payload_sizes (tracks : List (Track Nat)) :
    ((pollEventNew ⟨ClientState.New, [], tracks⟩ 0).1.state = ClientState.Incomplete 13) ∧
    ((pollEventNew ⟨ClientState.New, [], tracks⟩ 1).1.state = ClientState.Incomplete 8) ∧
    ((pollEventNew ⟨ClientState.New, [], tracks⟩ 3).1.state = ClientState.Incomplete 4) ∧
    ((pollEventNew ⟨ClientState.New, [], tracks⟩ 4).1.state = ClientState.Incomplete 1) ∧
    ((pollEventNew ⟨ClientState.New, [], tracks⟩ 5).1.state = ClientState.Complete) ∧
    (∀ tag : Nat, tag ≠ 0 → tag ≠ 1 → tag ≠ 3 → tag ≠ 4 →
      (pollEventNew ⟨ClientState.New, [], tracks⟩ tag).1.state = ClientState.Complete) ∧
    (pollEventComplete ⟨ClientState.Complete,
        [0, 0, 0, 0, 0, 0, 0, 0, 2, 63, 128, 0, 0, 1], [Track.new []]⟩ =
      some (⟨ClientState.New, [],
        [⟨[], [⟨2, 1065353216, Interpolation.Linear⟩]⟩]⟩, ReceiveResult.noEvent)) := by
  refine ⟨rfl, rfl, rfl, rfl, rfl, ?_, rfl⟩
  intro tag h0 h1 h3 h4
  unfold pollEventNew
  simp [h0, h1, h3, h4]

/-- C2 witness: the amended tag-size map evaluated at the unknown tag 99. -/
theorem c2_witness :
    (pollEventNew ⟨ClientState.New, [], []⟩ 99).1.state = ClientState.Complete :=
  (c2_tag_payload_sizes []).2.2.2.2.2.1 99 (by decide) (by decide) (by decide) (by decide)

/-- C7: a tag outside the known set {0, 1, 3, 4, 5} is consumed as a
zero-payload message: the `New` arm goes straight to `Complete` with just
the tag byte buffered, and completing produces no event, leaves the
tracks untouched, clears the buffer and resets the state to `New`. -/
theorem c7_unknown_tag_noop (tag : Nat) (tracks : List (Track Nat))
    (h0 : tag ≠ 0) (h1 : tag ≠ 1) (h3 : tag ≠ 3) (h4 : tag ≠ 4) (h5 : tag ≠ 5) :
    pollEventNew ⟨ClientState.New, [], tracks⟩ tag =
      (⟨ClientState.Complete, [tag], tracks⟩, ReceiveResult.incomplete) ∧
    pollEventComplete ⟨ClientState.Complete, [tag], tracks⟩ =
      some (⟨ClientState.New, [], tracks⟩, ReceiveResult.noEvent) := by
  constructor
  · unfold pollEventNew
    simp [h0, h1, h3, h4]
  · unfold pollEventComplete readU8
    simp [h0, h1, h3, h4, h5]

/-- C7 witness: the unknown tag 99 against a one-track store. -/
theorem c7_witness :
    pollEventComplete ⟨ClientState.Complete, [99], [Track.new [97]]⟩ =
      some (⟨ClientState.New, [], [Track.new [97]]⟩, ReceiveResult.noEvent) :=
  (c7_unknown_tag_noop 99 [Track.new [97]] (by decide) (by decide) (by decide)
    (by decide) (by decide)).2

/-- C6: on a track satisfying the strictly-sorted invariant, `set_key`
and `delete_key` preserve it; `set_key`'s keys are exactly the specified
sorted insertion (replace at an equal row, insert before the first
greater-or-equal row, append when none); replacement keeps the key
count, fresh insertion adds one, and `delete_key` removes exactly the
present key or does nothing. -/
theorem c6_mutations_preserve_invariant {α : Type} (t : Track α) (k : Key α) (r : Nat)
    (hs : t.sortedByRow) :
    (t.set_key k).sortedByRow ∧
    (t.delete_key r).sortedByRow ∧
    (t.set_key k).keys = insertSorted t.keys k ∧
    ((∃ x ∈ t.keys, x.row = k.row) → (t.set_key k).keys.length = t.keys.length) ∧
    ((∀ x ∈ t.keys, x.row ≠ k.row) → (t.set_key k).keys.length = t.keys.length + 1) ∧
    ((∃ x ∈ t.keys, x.row = r) → (t.delete_key r).keys.length = t.keys.length - 1) ∧
    ((∀ x ∈ t.keys, x.row ≠ r) → t.delete_key r = t) := by
  refine ⟨set_key_sortedByRow t k hs, delete_key_sortedByRow t r hs,
    set_key_keys_eq t k hs, ?_, ?_, delete_key_length_present t r, delete_key_absent t r⟩
  · intro h
    rw [set_key_keys_eq t k hs]
    exact insertSorted_length_replace hs h
  · intro h
    rw [set_key_keys_eq t k hs]
    exact insertSorted_length_insert h

/-- C6 witness: inserting a fresh key at row 7 and deleting row 5 on the
three-key example track keep the invariant. -/
theorem c6_witness :
    (exTrack.set_key ⟨7, 2, Interpolation.Linear⟩).sortedByRow ∧
    (exTrack.delete_key 5).sortedByRow ∧
    (exTrack.set_key ⟨7, 2, Interpolation.Linear⟩).keys.length = 4 := by
  have h := c6_mutations_preserve_invariant exTrack ⟨7, 2, Interpolation.Linear⟩ 5 (by decide)
  refine ⟨h.1, h.2.1, ?_⟩
  rw [h.2.2.2.2.1 (by decide)]
  decide

/-- C4: `get_value` on an empty track is 0; with at least one key, any
lookup at or before the first key's row returns the first key's value
and any lookup at or after the last key's row returns the last key's
value; on the spec's example track {0: 1.0, 5: 0.0, 10: 1.0},
`get_value (-1) = 1` and `get_value 11 = 1`. -/
theorem c4_flat_extrapolation :
    (∀ (name : List Nat) (row : ℚ), Track.get_value ⟨name, []⟩ row = 0) ∧
    (∀ (t : Track ℚ) (row : ℚ) (k0 : Key ℚ), t.keys.head? = some k0 →
      row ≤ (k0.row : ℚ) → t.get_value row = k0.value) ∧
    (∀ (t : Track ℚ) (row : ℚ) (klast : Key ℚ), t.sortedByRow →
      klast.row < 2 ^ 32 → t.keys.getLast? = some klast →
      (klast.row : ℚ) ≤ row → t.get_value row = klast.value) ∧
    exTrack.get_value (-1) = 1 ∧ exTrack.get_value 11 = 1 := by
  have hfirst : ∀ (t : Track ℚ) (row : ℚ) (k0 : Key ℚ), t.keys.head? = some k0 →
      row ≤ (k0.row : ℚ) → t.get_value row = k0.value := by
    intro t row k0 hh hrow
    exact get_value_first t row k0 hh (floorSat_le_of_le hrow)
  have hlast : ∀ (t : Track ℚ) (row : ℚ) (klast : Key ℚ), t.sortedByRow →
      klast.row < 2 ^ 32 → t.keys.getLast? = some klast →
      (klast.row : ℚ) ≤ row → t.get_value row = klast.value := by
    intro t row klast hs hb hl hrow
    exact get_value_last t row klast hl hs (le_floorSat_of_le hb hrow)
  refine ⟨fun name row => rfl, hfirst, hlast, ?_, ?_⟩
  · refine hfirst exTrack (-1) ⟨0, 1, Interpolation.Step⟩ rfl (by norm_num)
  · refine hlast exTrack 11 ⟨10, 1, Interpolation.Step⟩ (by decide) (by norm_num) rfl
      (by norm_num)

/-- C4 witness: the boundary branches evaluated on the example track at
rows 0 (first key) and 10.5 (past the last key). -/
theorem c4_witness :
    exTrack.get_value 0 = 1 ∧ exTrack.get_value (21/2) = 1 :=
  ⟨c4_flat_extrapolation.2.1 exTrack 0 ⟨0, 1, Interpolation.Step⟩ rfl (by norm_num),
   c4_flat_extrapolation.2.2.1 exTrack (21/2) ⟨10, 1, Interpolation.Step⟩ (by decide)
     (by norm_num) rfl (by norm_num)⟩

/-- C3 counterexample: on the sorted track with keys (row 0, value 0,
Linear) and (row 5, value 1, Linear), at the lookup row 1/2 — which is
strictly between the first key's row and the last key's row — the code
returns the first key's value 0, not the claimed blended value 1/10:
because `floor(1/2) = 0` does not exceed the first key's row, the code
takes the flat first-key branch instead of interpolating. -/
theorem c3_counterexample :
    Track.get_value exTrack2 (1/2) = 0 ∧
    (0 : ℚ) + (1 - 0) * Interpolation.interpolate Interpolation.Linear
      ((1/2 - 0) / (5 - 0)) = 1/10 ∧
    (0 : ℚ) ≠ 1/10 := by
  refine ⟨?_, by norm_num [Interpolation.interpolate], by norm_num⟩
  refine get_value_first exTrack2 (1/2) ⟨0, 0, Interpolation.Linear⟩ rfl ?_
  have : floorSat (1/2) = 0 := by
    unfold floorSat
    norm_num
  rw [this]

/-- C3 (amended): whenever `floor(row)` lies strictly between the first
key's row and — via the bracketing hypotheses — inside the segment
`keys[pos].row ≤ floor(row) < keys[pos+1].row` of a sorted track with
u32-sized rows, `get_value` returns
`lower.value + (higher.value − lower.value) · interpolate(lower.interpolation, t)`
with `t = (row − lower.row)/(higher.row − lower.row)`, where `lower` is
`keys[pos]` (the greatest key with row ≤ floor(row)) and `higher` is
`keys[pos+1]`; the interpolation kind applied is the one stored on the
lower (left) key.  The original claim's weaker bound `row > first.row`
is false (see the counterexample): `floor(row) > first.row` is required. -/
theorem c3_segment_interpolation (t : Track ℚ) (row : ℚ) (pos : Nat)
    (hs : t.sortedByRow) (hb : ∀ k ∈ t.keys, k.row < 2 ^ 32)
    (hp1 : pos + 1 < t.keys.length)
    (hfirst : ∀ h : 0 < t.keys.length, ((t.keys.get ⟨0, h⟩).row : ℤ) < ⌊row⌋)
    (hlo : (((t.keys.get ⟨pos, by omega⟩).row : Nat) : ℤ) ≤ ⌊row⌋)
    (hhi : ⌊row⌋ < (((t.keys.get ⟨pos + 1, hp1⟩).row : Nat) : ℤ)) :
    t.get_value row =
      (t.keys.get ⟨pos, by omega⟩).value +
        ((t.keys.get ⟨pos + 1, hp1⟩).value - (t.keys.get ⟨pos, by omega⟩).value) *
          (t.keys.get ⟨pos, by omega⟩).interpolation.interpolate
            ((row - ((t.keys.get ⟨pos, by omega⟩).row : ℚ)) /
              (((t.keys.get ⟨pos + 1, hp1⟩).row : ℚ) -
                ((t.keys.get ⟨pos, by omega⟩).row : ℚ))) := by
  have hmem : t.keys.get ⟨pos + 1, hp1⟩ ∈ t.keys := List.get_mem _ _ _
  have hb1 : (t.keys.get ⟨pos + 1, hp1⟩).row < 2 ^ 32 := hb _ hmem
  have hval : floorSat row = Int.toNat ⌊row⌋ := by
    apply floorSat_eq_toNat
    omega
  apply get_value_bracket t row pos hs hp1
  · intro h
    have := hfirst h
    omega
  · omega
  · omega

/-- C3 witness: the amended interior-segment law evaluated on the
example track at row 7.5, which sits in the segment between the keys at
rows 5 and 10 (Step interpolation on the lower key gives a flat 0). -/
theorem c3_witness : exTrack.get_value (15/2) = 0 := by
  have hfl : ⌊(15/2 : ℚ)⌋ = 7 := by norm_num
  have h := c3_segment_interpolation exTrack (15/2) 1 (by decide)
    (by decide) (by decide)
    (by intro h; rw [hfl]; show ((0 : Nat) : ℤ) < 7; decide)
    (by rw [hfl]; decide) (by rw [hfl]; decide)
  rw [h]
  show (0 : ℚ) + (1 - 0) * Interpolation.interpolate Interpolation.Step
    ((15/2 - ((5 : Nat) : ℚ)) / (((10 : Nat) : ℚ) - ((5 : Nat) : ℚ))) = 0
  norm_num [Interpolation.interpolate]

/-- C10: on a sorted track, the checked evaluator (whose `none` models a
`usize` underflow in the lower-bound search, an out-of-bounds key index,
or a division by zero) always succeeds and agrees with `get_value`, for
every rational lookup row; negative rows saturate to floor 0 in the
float-to-u32 cast and take the first-key branch. -/
theorem c10_get_value_no_panic (t : Track ℚ) (row : ℚ) (hs : t.sortedByRow) :
    t.get_valueChecked row = some (t.get_value row) ∧
    (row < 0 → ∀ k0 : Key ℚ, t.keys.head? = some k0 →
      floorSat row = 0 ∧ t.get_value row = k0.value) := by
  refine ⟨get_valueChecked_eq t row hs, ?_⟩
  intro hneg k0 hh
  refine ⟨floorSat_neg hneg, ?_⟩
  exact get_value_first t row k0 hh (by rw [floorSat_neg hneg]; exact Nat.zero_le _)

/-- C10 witness: the checked evaluator on the example track at the
negative row −2. -/
theorem c10_witness :
    exTrack.get_valueChecked (-2) = some (exTrack.get_value (-2)) ∧
    floorSat (-2) = 0 ∧ exTrack.get_value (-2) = 1 := by
  have h := c10_get_value_no_panic exTrack (-2) (by decide)
  exact ⟨h.1, (h.2 (by norm_num) ⟨0, 1, Interpolation.Step⟩ rfl).1,
    (h.2 (by norm_num) ⟨0, 1, Interpolation.Step⟩ rfl).2⟩

/-- C9: every track of every blob `deserialize` accepts satisfies the
strictly-sorted invariant (each key goes through `set_key`), and for any
key sequence folded through `set_key` — in-order, out-of-order or with
duplicate rows — the key stored at each row is the LAST occurrence of
that row in the sequence, other rows keeping their previous key. -/
theorem c9_deserialize_invariant_last_wins :
    (∀ (data : List Nat) (ts : List (Track Nat)), deserialize data = some ts →
      ∀ t ∈ ts, t.sortedByRow) ∧
    (∀ (ks : List (Key Nat)) (t : Track Nat), t.sortedByRow →
      (ks.foldl Track.set_key t).sortedByRow ∧
      ∀ r : Nat, (ks.foldl Track.set_key t).lookupRow r =
        (ks.reverse.find? (fun y => y.row == r)).or (t.lookupRow r)) := by
  constructor
  · intro data ts h t ht
    unfold deserialize at h
    rcases h1 : readU64LE data with _ | ⟨cnt, rest⟩
    · simp [h1] at h
    simp only [h1] at h
    rcases h2 : readTracks cnt rest with _ | ⟨ts0, rest2⟩
    · simp [h2] at h
    simp only [h2] at h
    simp only [Option.some.injEq] at h
    rw [← h] at ht
    exact readTracks_sortedByRow cnt rest ts0 rest2 h2 t ht
  · intro ks t hs
    exact ⟨foldl_set_key_sortedByRow ks t hs,
      fun r => foldl_set_key_lookupRow ks t hs r⟩

/-- C9 witness: an out-of-order key sequence with a duplicate row folded
into an empty track stays sorted, and a blob listing those keys decodes
to the sorted, last-wins track. -/
theorem c9_witness :
    (([⟨5, 11, Interpolation.Step⟩, ⟨2, 22, Interpolation.Step⟩,
        ⟨5, 33, Interpolation.Linear⟩] : List (Key Nat)).foldl Track.set_key
      (Track.new [97])).sortedByRow ∧
    (∀ t ∈ [(⟨[97], [⟨2, 22, Interpolation.Step⟩,
        ⟨5, 33, Interpolation.Linear⟩]⟩ : Track Nat)], t.sortedByRow) := by
  constructor
  · exact (c9_deserialize_invariant_last_wins.2 _ _ (by decide)).1
  · exact c9_deserialize_invariant_last_wins.1 (writeU64LE 1 ++ writeU64LE 1 ++ [97] ++
      writeU64LE 3 ++ serializeKey ⟨5, 11, Interpolation.Step⟩ ++
      serializeKey ⟨2, 22, Interpolation.Step⟩ ++
      serializeKey ⟨5, 33, Interpolation.Linear⟩) _ (by decide)

/-- C5: deserializing the bytes produced by `serialize` reproduces every
track exactly — same track list, hence same names, key counts, rows,
values (raw f32 bit patterns) and interpolation kinds — for every
non-empty collection satisfying the sorted invariant, with names valid
UTF-8 and all lengths within their wire-field ranges. -/
theorem c5_serialize_roundtrip (ts : List (Track Nat))
    (hne : ts ≠ [])
    (hlen : ts.length < 2 ^ 64)
    (hh : ∀ t ∈ ts, t.sortedByRow ∧ validUtf8 t.name = true ∧
      t.name.length < 2 ^ 64 ∧ t.keys.length < 2 ^ 64 ∧
      ∀ k ∈ t.keys, k.row < 2 ^ 32 ∧ k.value < 2 ^ 32) :
    deserialize (serialize ts) = some ts := by
  unfold serialize deserialize
  simp only [readU64LE_writeU64LE ts.length _ hlen]
  have hrt := readTracks_serialized ts [] hh
  rw [List.append_nil] at hrt
  simp only [hrt]

/-- C5 witness: the round trip evaluated on a one-track collection named
"test" with two keys. -/
theorem c5_witness :
    deserialize (serialize [(⟨[116, 101, 115, 116],
      [⟨0, 1065353216, Interpolation.Step⟩, ⟨5, 0, Interpolation.Linear⟩]⟩ : Track Nat)]) =
    some [⟨[116, 101, 115, 116],
      [⟨0, 1065353216, Interpolation.Step⟩, ⟨5, 0, Interpolation.Linear⟩]⟩] :=
  c5_serialize_roundtrip _ (by decide) (by decide) (by decide)

/-- C8: deserialization of a persistence blob panics (modelled `none`)
whenever a declared length implies reading past the end of the buffer —
universally: a buffer too short for its u64 track count header; a u64
track count whose minimal footprint (16 bytes per track, its two u64
length headers) exceeds the remaining buffer; a u64 name byte length
exceeding the remaining buffer, at any track position; a u64 key count
whose 12-bytes-per-key footprint exceeds the remaining buffer, at any
track position — and whenever a name's bytes are not valid UTF-8; in
each case no track collection is produced.  A well-formed blob with
interpolation codes in 0..3 decodes successfully. -/
theorem c8_deserialize_failures :
    (∀ data : List Nat, data.length < 8 → deserialize data = none) ∧
    (∀ (data : List Nat) (cnt : Nat) (rest : List Nat),
      readU64LE data = some (cnt, rest) → rest.length < 16 * cnt →
      deserialize data = none) ∧
    (∀ (n : Nat) (bytes : List Nat) (nameLen : Nat) (b1 : List Nat),
      readU64LE bytes = some (nameLen, b1) → b1.length < nameLen →
      readTracks (n + 1) bytes = none) ∧
    (∀ (n : Nat) (bytes : List Nat) (nameLen : Nat) (b1 : List Nat),
      readU64LE bytes = some (nameLen, b1) → nameLen ≤ b1.length →
      validUtf8 (b1.take nameLen) = false →
      readTracks (n + 1) bytes = none) ∧
    (∀ (n : Nat) (bytes : List Nat) (nameLen : Nat) (b1 : List Nat)
      (kc : Nat) (b2 : List Nat),
      readU64LE bytes = some (nameLen, b1) → nameLen ≤ b1.length →
      readU64LE (b1.drop nameLen) = some (kc, b2) → b2.length < 12 * kc →
      readTracks (n + 1) bytes = none) ∧
    (∀ (data : List Nat) (cnt : Nat) (rest : List Nat),
      readU64LE data = some (cnt, rest) → readTracks cnt rest = none →
      deserialize data = none) ∧
    (deserialize (writeU64LE 1 ++ writeU64LE 1 ++ [97] ++ writeU64LE 1 ++
      writeU32LE 3 ++ writeU32LE 7 ++ writeU32LE 2) =
      some [⟨[97], [⟨3, 7, Interpolation.Smooth⟩]⟩]) := by
  refine ⟨?_, ?_, readTracks_none_nameLen, readTracks_none_utf8,
    readTracks_none_keyCount, deserialize_none_of_readTracks, by decide⟩
  · intro data h
    unfold deserialize
    rw [readU64LE_none h]
  · intro data cnt rest h1 h2
    exact deserialize_none_of_readTracks data cnt rest h1
      (readTracks_none_short cnt rest h2)

/-- C8 witness: the failure families evaluated on concrete blobs — a
3-byte buffer, a track count of 3 over an 8-byte remainder, a name
length of 5 over a 2-byte remainder, a non-UTF-8 name byte 0xFF, and a
key count of 2 over a single 12-byte key — plus the helpers' well-formed
decode (last conjunct of the theorem, hypothesis-free). -/
theorem c8_witness :
    deserialize [1, 2, 3] = none ∧
    deserialize (writeU64LE 3 ++ writeU64LE 0) = none ∧
    deserialize (writeU64LE 1 ++ (writeU64LE 5 ++ [97, 98])) = none ∧
    deserialize (writeU64LE 1 ++ (writeU64LE 1 ++ ([255] ++ writeU64LE 0))) = none ∧
    deserialize (writeU64LE 1 ++ (writeU64LE 1 ++ ([97] ++ (writeU64LE 2 ++
      serializeKey ⟨1, 0, Interpolation.Step⟩)))) = none := by
  refine ⟨c8_deserialize_failures.1 [1, 2, 3] (by decide), ?_, ?_, ?_, ?_⟩
  · exact c8_deserialize_failures.2.1 (writeU64LE 3 ++ writeU64LE 0) 3
      (writeU64LE 0) (by decide) (by decide)
  · exact c8_deserialize_failures.2.2.2.2.2.1
      (writeU64LE 1 ++ (writeU64LE 5 ++ [97, 98])) 1
      (writeU64LE 5 ++ [97, 98]) (by decide)
      (c8_deserialize_failures.2.2.1 0 (writeU64LE 5 ++ [97, 98]) 5 [97, 98]
        (by decide) (by decide))
  · exact c8_deserialize_failures.2.2.2.2.2.1
      (writeU64LE 1 ++ (writeU64LE 1 ++ ([255] ++ writeU64LE 0))) 1
      (writeU64LE 1 ++ ([255] ++ writeU64LE 0)) (by decide)
      (c8_deserialize_failures.2.2.2.1 0 (writeU64LE 1 ++ ([255] ++ writeU64LE 0))
        1 ([255] ++ writeU64LE 0) (by decide) (by decide) (by decide))
  · exact c8_deserialize_failures.2.2.2.2.2.1
      (writeU64LE 1 ++ (writeU64LE 1 ++ ([97] ++ (writeU64LE 2 ++
        serializeKey ⟨1, 0, Interpolation.Step⟩)))) 1
      (writeU64LE 1 ++ ([97] ++ (writeU64LE 2 ++
        serializeKey ⟨1, 0, Interpolation.Step⟩))) (by decide)
      (c8_deserialize_failures.2.2.2.2.1 0
        (writeU64LE 1 ++ ([97] ++ (writeU64LE 2 ++
          serializeKey ⟨1, 0, Interpolation.Step⟩)))
        1 ([97] ++ (writeU64LE 2 ++ serializeKey ⟨1, 0, Interpolation.Step⟩))
        2 (serializeKey ⟨1, 0, Interpolation.Step⟩)
        (by decide) (by decide) (by decide) (by decide))

end Rocket
